import Mathlib

/-!
Shallow embedding of the snippet-manager storage layer
(`database/postgresStorage.go`, final revision), the JWT middleware
(`middleware/middle.go`) and the login handler (`handlers/userHandler.go`).

UUIDs are modelled as `Nat`; `uuid.New()` is modelled by a fresh-id counter
`nextId` carried in the database state.  `time.Now()` is passed in as a `Nat`
parameter `now`.  Each SQL statement is embedded as a function on the state;
a transaction is an `Except`-chain over the state that commits on success and
returns the original state on error (mirroring `defer tx.Rollback()` followed
by `tx.Commit()`).  Errors are the strings the driver / code would surface,
matched by the handlers.
-/

namespace SnippetManager

/-- A row of the `snippets` table. -/
structure SnippetRow where
  id : Nat
  title : String
  description : String
  language : String
  code : String
  userId : Nat
  folderId : Option Nat
  createdAt : Nat
  updatedAt : Nat
  deriving DecidableEq, Repr

/-- A row of the `tags` table. -/
structure TagRow where
  id : Nat
  name : String
  deriving DecidableEq, Repr

/-- The in-memory payload `models.Snippet`. -/
structure Snippet where
  id : Nat
  title : String
  description : String
  language : String
  code : String
  userId : Nat
  folderId : Option Nat
  tags : List String
  createdAt : Nat
  updatedAt : Nat
  deriving DecidableEq, Repr

/-- The relational store: tables `snippets`, `tags`, `snippet_tags`, plus a
fresh-id counter modelling `uuid.New()`. -/
structure DB where
  snippets : List SnippetRow
  tags : List TagRow
  snippetTags : List (Nat × Nat)
  nextId : Nat
  deriving DecidableEq, Repr

namespace DB

/-- `EXISTS (SELECT 1 FROM snippets WHERE id = i)`. -/
def hasSnippet (db : DB) (i : Nat) : Bool :=
  db.snippets.any (fun r => r.id = i)

/-- `EXISTS (SELECT 1 FROM tags WHERE id = i)`. -/
def hasTagId (db : DB) (i : Nat) : Bool :=
  db.tags.any (fun t => t.id = i)

/-- `SELECT id FROM tags WHERE name = $1` (first match). -/
def tagIdOf (db : DB) (name : String) : Option Nat :=
  (db.tags.find? (fun t => t.name = name)).map (fun t => t.id)

end DB

/-- Error message for a primary-key / unique-constraint violation. -/
def uniqueViolation : String := "duplicate key value violates unique constraint"

/-- Error message for a foreign-key violation. -/
def fkViolation : String := "violates foreign key constraint"

/-- `INSERT INTO snippets (...) VALUES (...)`: fails on a duplicate primary
key, otherwise appends the row. -/
def insertSnippetRow (db : DB) (row : SnippetRow) : Except String DB :=
  if db.hasSnippet row.id then .error uniqueViolation
  else .ok { db with snippets := db.snippets ++ [row] }

/-- `INSERT INTO tags (id, name) VALUES ($1, $2) ON CONFLICT (name) DO UPDATE
SET name = EXCLUDED.name RETURNING id`: on a name collision returns the
existing row's id and leaves the table unchanged; otherwise inserts a row
under a fresh id and returns it. -/
def upsertTag (db : DB) (name : String) : DB × Nat :=
  match db.tags.find? (fun t => t.name = name) with
  | some t => (db, t.id)
  | none =>
      ({ db with tags := db.tags ++ [⟨db.nextId, name⟩], nextId := db.nextId + 1 },
       db.nextId)

/-- `INSERT INTO tags (id, name) VALUES ($1, $2)` (no conflict clause, as in
`Update`'s create-tag branch): fails on a duplicate id or name. -/
def insertTagStrict (db : DB) (tid : Nat) (name : String) : Except String DB :=
  if db.hasTagId tid then .error uniqueViolation
  else if (db.tags.any (fun t => t.name = name)) then .error uniqueViolation
  else .ok { db with tags := db.tags ++ [⟨tid, name⟩] }

/-- `INSERT INTO snippet_tags (snippet_id, tag_id) VALUES ($1, $2)
ON CONFLICT DO NOTHING`: a foreign-key violation still errors, a duplicate
pair is silently ignored. -/
def insertSnippetTagIgnore (db : DB) (sid tid : Nat) : Except String DB :=
  if ¬ db.hasSnippet sid then .error fkViolation
  else if ¬ db.hasTagId tid then .error fkViolation
  else if (sid, tid) ∈ db.snippetTags then .ok db
  else .ok { db with snippetTags := db.snippetTags ++ [(sid, tid)] }

/-- `INSERT INTO snippet_tags (snippet_id, tag_id) VALUES ($1, $2)` with no
conflict clause (as in `Update`'s tag loop): a duplicate pair violates the
composite primary key. -/
def insertSnippetTagStrict (db : DB) (sid tid : Nat) : Except String DB :=
  if ¬ db.hasSnippet sid then .error fkViolation
  else if ¬ db.hasTagId tid then .error fkViolation
  else if (sid, tid) ∈ db.snippetTags then .error uniqueViolation
  else .ok { db with snippetTags := db.snippetTags ++ [(sid, tid)] }

/-- `UPDATE snippets SET title = $2, description = $3, language = $4,
code = $5, folder_id = $6, updated_at = $7 WHERE id = $1`: rewrites the six
listed columns of every matching row (the row count is not inspected by the
code, so zero matches is not an error). -/
def updateSnippetRow (db : DB) (s : Snippet) (now : Nat) : DB :=
  { db with snippets := db.snippets.map (fun r =>
      if r.id = s.id then
        { r with title := s.title, description := s.description,
                 language := s.language, code := s.code,
                 folderId := s.folderId, updatedAt := now }
      else r) }

/-- `DELETE FROM snippet_tags WHERE snippet_id = $1`. -/
def deleteSnippetTags (db : DB) (sid : Nat) : DB :=
  { db with snippetTags := db.snippetTags.filter (fun p => p.1 ≠ sid) }

/-- `SELECT t.name FROM tags t JOIN snippet_tags st ON t.id = st.tag_id
WHERE st.snippet_id = $1` (`GetSnippetTags`). -/
def GetSnippetTags (db : DB) (sid : Nat) : List String :=
  (db.snippetTags.filter (fun p => p.1 = sid)).filterMap
    (fun p => (db.tags.find? (fun t => t.id = p.2)).map (fun t => t.name))

/-- One iteration of `Create`'s tag loop: upsert the tag, then insert the
association with `ON CONFLICT DO NOTHING`. -/
def createTagStep (sid : Nat) (tx : DB) (tag : String) : Except String DB :=
  let (tx1, tid) := upsertTag tx tag
  insertSnippetTagIgnore tx1 sid tid

/-- `Create`'s `for _, tag := range snippet.Tags` loop. -/
def createTagsLoop (sid : Nat) (tx : DB) : List String → Except String DB
  | [] => .ok tx
  | t :: ts =>
      match createTagStep sid tx t with
      | .error e => .error e
      | .ok tx1 => createTagsLoop sid tx1 ts

/-- The body of `PostgresStorage.Create` run inside its transaction: set both
timestamps to `now`, insert the snippet row, then the tag loop. -/
def createTx (db : DB) (s : Snippet) (now : Nat) : Except String DB :=
  match insertSnippetRow db
      ⟨s.id, s.title, s.description, s.language, s.code, s.userId, s.folderId,
        now, now⟩ with
  | .error e => .error e
  | .ok tx => createTagsLoop s.id tx s.tags

/-- `PostgresStorage.Create`: commit on success, roll back to the original
state on any error (`defer tx.Rollback()`). -/
def Create (db : DB) (s : Snippet) (now : Nat) : DB × Option String :=
  match createTx db s now with
  | .ok tx => (tx, none)
  | .error e => (db, some e)

/-- One iteration of `Update`'s tag loop: `SELECT id FROM tags WHERE name`,
create the tag if absent, then insert the association with no conflict
clause. -/
def updateTagStep (sid : Nat) (tx : DB) (tag : String) : Except String DB :=
  match tx.tagIdOf tag with
  | some tid => insertSnippetTagStrict tx sid tid
  | none =>
      match insertTagStrict tx tx.nextId tag with
      | .error e => .error e
      | .ok tx1 =>
          insertSnippetTagStrict { tx1 with nextId := tx1.nextId + 1 } sid tx.nextId

/-- `Update`'s `for _, tag := range snippet.Tags` loop. -/
def updateTagsLoop (sid : Nat) (tx : DB) : List String → Except String DB
  | [] => .ok tx
  | t :: ts =>
      match updateTagStep sid tx t with
      | .error e => .error e
      | .ok tx1 => updateTagsLoop sid tx1 ts

/-- The body of `PostgresStorage.Update` inside its transaction: rewrite the
row, delete all existing associations, then re-add the incoming tag list. -/
def updateTx (db : DB) (s : Snippet) (now : Nat) : Except String DB :=
  let tx := updateSnippetRow db s now
  let tx := deleteSnippetTags tx s.id
  updateTagsLoop s.id tx s.tags

/-- `PostgresStorage.Update`: commit on success, roll back on any error. -/
def Update (db : DB) (s : Snippet) (now : Nat) : DB × Option String :=
  match updateTx db s now with
  | .ok tx => (tx, none)
  | .error e => (db, some e)

/-- `PostgresStorage.Get`: a failed single-row scan (no row for the id)
surfaces as the dedicated error string `"snippet not found"`; otherwise the
row is returned with its joined tag names. -/
def Get (db : DB) (id : Nat) : Except String Snippet :=
  match db.snippets.find? (fun r => r.id = id) with
  | none => .error "snippet not found"
  | some r =>
      .ok ⟨r.id, r.title, r.description, r.language, r.code, r.userId,
        r.folderId, GetSnippetTags db id, r.createdAt, r.updatedAt⟩

/-- `PostgresStorage.Delete`: `DELETE FROM snippets WHERE id = $1`; the row
count is not inspected, so deleting a missing id succeeds.  The `ON DELETE
CASCADE` on `snippet_tags` removes the associations. -/
def Delete (db : DB) (id : Nat) : DB × Option String :=
  ({ db with snippets := db.snippets.filter (fun r => r.id ≠ id),
             snippetTags := db.snippetTags.filter (fun p => p.1 ≠ id) },
   none)

/-- `PostgresStorage.AddTag`: its own transaction around the tag upsert and a
conflict-ignoring association insert. -/
def AddTag (db : DB) (sid : Nat) (tagName : String) : DB × Option String :=
  match createTagStep sid db tagName with
  | .ok tx => (tx, none)
  | .error e => (db, some e)

/-- Well-formedness of the store: the schema's key and foreign-key
constraints (primary keys on `snippets.id`, `tags.id`, the unique constraint
on `tags.name`, the composite key on `snippet_tags`, and both of its foreign
keys), plus freshness of the id counter. -/
structure WF (db : DB) : Prop where
  snipIdsNodup : (db.snippets.map (fun r => r.id)).Nodup
  tagIdsNodup : (db.tags.map (fun t => t.id)).Nodup
  tagNamesNodup : (db.tags.map (fun t => t.name)).Nodup
  stNodup : db.snippetTags.Nodup
  stFkSnip : ∀ p ∈ db.snippetTags, db.hasSnippet p.1 = true
  stFkTag : ∀ p ∈ db.snippetTags, db.hasTagId p.2 = true
  freshTag : ∀ t ∈ db.tags, t.id < db.nextId

/-- `name` is associated to snippet `sid`: some tag row carries the name and
the join table links the pair. -/
def assocName (db : DB) (sid : Nat) (name : String) : Prop :=
  ∃ t ∈ db.tags, t.name = name ∧ (sid, t.id) ∈ db.snippetTags

instance (db : DB) (sid : Nat) (name : String) : Decidable (assocName db sid name) :=
  List.decidableBEx _ db.tags

/-! ## `middleware/middle.go` -/

/-- The part of an HTTP request the middleware reads: the value of
`r.Header.Get("Authorization")` (Go returns `""` for an absent header). -/
structure Request where
  authHeader : String
  deriving DecidableEq, Repr

/-- What a wrapped endpoint observes: either an `http.Error` response with a
status code and body, or the wrapped handler's own response. -/
inductive HttpResp (α : Type) where
  | httpError (status : Nat) (body : String) : HttpResp α
  | fromHandler (resp : α) : HttpResp α
  deriving DecidableEq, Repr

/-- `strings.TrimPrefix(authHeader, "Bearer ")`: drops the prefix when
present, otherwise returns the string unchanged.  Spelled on the character
list ("Bearer " is seven one-byte characters) so that it evaluates by
kernel reduction. -/
def trimBearer (s : String) : String :=
  if "Bearer ".data.isPrefixOf s.data then ⟨s.data.drop 7⟩ else s

/-- `middleware.JWTAuth`, with `jwt.ParseWithClaims`-and-`token.Valid`
abstracted as the boolean `verify` (true exactly when parsing, signature
verification against the process-wide secret, and registered-claim checks
such as expiry all pass).  Returns the response together with the number of
times the wrapped handler `next` was invoked, and threads the request to it
unchanged. -/
def JWTAuth (verify : String → Bool) (next : Request → α) (req : Request) :
    HttpResp α × Nat :=
  if req.authHeader = "" then
    (.httpError 401 "Authorization header missing", 0)
  else
    let tokenString := trimBearer req.authHeader
    if tokenString = "" then
      (.httpError 401 "Token missing", 0)
    else if verify tokenString then
      (.fromHandler (next req), 1)
    else
      (.httpError 401 "Invalid token", 0)

/-! ## `handlers/userHandler.go` (`Login`) -/

/-- A row of the `users` table as read by `GetUserByUsername` (only the
fields `Login` consults). -/
structure UserRow where
  username : String
  password : String
  deriving DecidableEq, Repr

/-- `UserHandler.Login` after JSON decoding, returning `(status, body)`.
`GetUserByUsername` is the `users.find?`; `bcrypt.CompareHashAndPassword` is
abstracted as `verify hash plaintext`.  An unknown username answers
`401 "Invalid username"`, a failed comparison `401 "Invalid password"`, and
success `200` with the user's body (password cleared). -/
def Login (verify : String → String → Bool) (users : List UserRow)
    (username password : String) : Nat × String :=
  match users.find? (fun u => u.username = username) with
  | none => (401, "Invalid username")
  | some u =>
      if verify u.password password then (200, u.username)
      else (401, "Invalid password")

/-! ## Handler status mapping for storage errors -/

/-- The error branch shared by `getSnippet` / `updateSnippet` /
`deleteSnippet`: the string `"snippet not found"` maps to 404, any other
storage error to 500. -/
def snippetErrStatus (msg : String) : Nat :=
  if msg = "snippet not found" then 404 else 500

/-- `deleteSnippet`'s overall status: 204 on success, otherwise the shared
error mapping. -/
def deleteStatus (e : Option String) : Nat :=
  match e with
  | none => 204
  | some msg => snippetErrStatus msg

/-- `updateSnippet`'s overall status: 200 on success, otherwise the shared
error mapping. -/
def updateStatus (e : Option String) : Nat :=
  match e with
  | none => 200
  | some msg => snippetErrStatus msg

/-- `getSnippet`'s overall status: 200 on success, otherwise the shared
error mapping. -/
def getStatus (e : Except String Snippet) : Nat :=
  match e with
  | .ok _ => 200
  | .error msg => snippetErrStatus msg

/-! ## Concrete sample values (used by the closed instantiations below) -/

/-- An empty, well-formed store. -/
def dbEmpty : DB := ⟨[], [], [], 100⟩

/-- A sample payload with two distinct tags. -/
def sampleSnip : Snippet := ⟨1, "t", "d", "go", "x", 7, none, ["a", "b"], 55, 66⟩

/-- The same id with a duplicated tag name. -/
def sampleSnipDup : Snippet := ⟨1, "t", "d", "go", "x", 7, none, ["a", "a"], 55, 66⟩

/-- An update payload for the sample snippet carrying an empty tag list. -/
def sampleSnipNoTags : Snippet := ⟨1, "t3", "d3", "go", "z", 7, none, [], 0, 0⟩

/-- A payload whose id is absent from every sample store. -/
def sampleMissing : Snippet := ⟨9, "t2", "d2", "go", "y", 7, none, [], 0, 0⟩

/-- The store after creating `sampleSnip` in `dbEmpty` at time 10. -/
def dbOne : DB := (Create dbEmpty sampleSnip 10).1

/-! ## Helper lemmas -/

theorem hasSnippet_congr (tx1 tx : DB) (h : tx1.snippets = tx.snippets)
    (sid : Nat) : tx1.hasSnippet sid = tx.hasSnippet sid := by
  unfold DB.hasSnippet; rw [h]

/-- With duplicate-free tag ids, `find?` by a member row's id returns that
row. -/
theorem find?_id_of_mem (tags : List TagRow) (r : TagRow)
    (hnd : (tags.map (fun t => t.id)).Nodup) (hr : r ∈ tags) :
    tags.find? (fun t => t.id = r.id) = some r := by
  induction tags with
  | nil => cases hr
  | cons a l ih =>
      simp only [List.map_cons, List.nodup_cons] at hnd
      rcases List.mem_cons.mp hr with h | h
      · subst h; simp
      · have hne : ¬ (a.id = r.id) := by
          intro he
          exact hnd.1 (he ▸ List.mem_map_of_mem (fun t => t.id) h)
        simpa [List.find?_cons, hne] using ih hnd.2 h

/-- The joined tag-name list of `GetSnippetTags` contains a name exactly when
the name is associated, provided tag ids are duplicate-free. -/
theorem mem_GetSnippetTags (db : DB) (sid : Nat) (name : String)
    (hnd : (db.tags.map (fun t => t.id)).Nodup) :
    name ∈ GetSnippetTags db sid ↔ assocName db sid name := by
  unfold GetSnippetTags assocName
  constructor
  · intro h
    rcases List.mem_filterMap.mp h with ⟨p, hp, hfind⟩
    rcases Option.map_eq_some'.mp hfind with ⟨r, hr, hname⟩
    have hrmem := List.mem_of_find?_eq_some hr
    have hrid : r.id = p.2 := by simpa using List.find?_some hr
    have hps := List.mem_filter.mp hp
    have hp1 : p.1 = sid := by simpa using hps.2
    refine ⟨r, hrmem, hname, ?_⟩
    rw [hrid, ← hp1]
    exact hps.1
  · rintro ⟨r, hrmem, hname, hpair⟩
    apply List.mem_filterMap.mpr
    refine ⟨(sid, r.id), List.mem_filter.mpr ⟨hpair, by simp⟩, ?_⟩
    show Option.map (fun t => t.name) (db.tags.find? (fun t => t.id = r.id)) = some name
    rw [find?_id_of_mem db.tags r hnd hrmem]
    simp [hname]

/-- Success shape of the conflict-ignoring association insert. -/
theorem insertSnippetTagIgnore_ok (tx tx1 : DB) (sid tid : Nat)
    (h : insertSnippetTagIgnore tx sid tid = .ok tx1) :
    tx1.snippets = tx.snippets ∧ tx1.tags = tx.tags ∧ tx1.nextId = tx.nextId ∧
    (∀ p ∈ tx.snippetTags, p ∈ tx1.snippetTags) ∧
    (sid, tid) ∈ tx1.snippetTags ∧
    (∀ p ∈ tx1.snippetTags, p ∈ tx.snippetTags ∨ p = (sid, tid)) := by
  unfold insertSnippetTagIgnore at h
  split at h
  · cases h
  split at h
  · cases h
  split at h
  · cases h
    refine ⟨rfl, rfl, rfl, fun p hp => hp, by assumption, fun p hp => .inl hp⟩
  · cases h
    refine ⟨rfl, rfl, rfl, fun p hp => List.mem_append_left _ hp, by simp, ?_⟩
    intro p hp
    rcases List.mem_append.mp hp with h1 | h1
    · exact .inl h1
    · exact .inr (by simpa using h1)

/-- The conflict-ignoring association insert succeeds whenever both foreign
keys are satisfied. -/
theorem insertSnippetTagIgnore_isOk (tx : DB) (sid tid : Nat)
    (hs : tx.hasSnippet sid = true) (ht : tx.hasTagId tid = true) :
    ∃ tx1, insertSnippetTagIgnore tx sid tid = .ok tx1 := by
  unfold insertSnippetTagIgnore
  rw [hs, ht]
  by_cases hmem : (sid, tid) ∈ tx.snippetTags
  · exact ⟨tx, by simp [hmem]⟩
  · exact ⟨{ tx with snippetTags := tx.snippetTags ++ [(sid, tid)] }, by simp [hmem]⟩

/-- Success shape of the strict association insert: it appends exactly the
new pair and certifies both foreign keys and the absence of the pair. -/
theorem insertSnippetTagStrict_ok (tx tx1 : DB) (sid tid : Nat)
    (h : insertSnippetTagStrict tx sid tid = .ok tx1) :
    tx1 = { tx with snippetTags := tx.snippetTags ++ [(sid, tid)] } ∧
    tx.hasSnippet sid = true ∧ tx.hasTagId tid = true ∧
    (sid, tid) ∉ tx.snippetTags := by
  unfold insertSnippetTagStrict at h
  split at h
  · cases h
  split at h
  · cases h
  split at h
  · cases h
  · cases h
    refine ⟨rfl, ?_, ?_, by assumption⟩
    · simpa using ‹¬ (¬ tx.hasSnippet sid = true)›
    · simpa using ‹¬ (¬ tx.hasTagId tid = true)›

/-- The tag-table invariants maintained by both tag loops: duplicate-free
tag ids and names, and freshness of the id counter over both tables that
hold tag ids. -/
structure TagsOK (db : DB) : Prop where
  idsNodup : (db.tags.map (fun t => t.id)).Nodup
  namesNodup : (db.tags.map (fun t => t.name)).Nodup
  fresh : ∀ t ∈ db.tags, t.id < db.nextId
  freshSt : ∀ p ∈ db.snippetTags, p.2 < db.nextId

theorem tagsOK_of_wf (db : DB) (h : WF db) : TagsOK db := by
  refine ⟨h.tagIdsNodup, h.tagNamesNodup, h.freshTag, ?_⟩
  intro p hp
  have hft := h.stFkTag p hp
  unfold DB.hasTagId at hft
  rcases List.any_eq_true.mp hft with ⟨t, ht, he⟩
  have he' : t.id = p.2 := by simpa using he
  exact he' ▸ h.freshTag t ht

theorem assocName_mono (tx tx' : DB) (htags : ∀ r ∈ tx.tags, r ∈ tx'.tags)
    (hst : ∀ p ∈ tx.snippetTags, p ∈ tx'.snippetTags)
    (sid : Nat) (name : String) (h : assocName tx sid name) :
    assocName tx' sid name := by
  rcases h with ⟨r, hr, hname, hpair⟩
  exact ⟨r, htags r hr, hname, hst _ hpair⟩

/-- What a successful `Create`-loop step guarantees without any invariant:
the snippets table is untouched, tags and associations only grow, and the
processed tag name ends up associated. -/
theorem createTagStep_ok_basic (sid : Nat) (t : String) (tx tx1 : DB)
    (h : createTagStep sid tx t = .ok tx1) :
    tx1.snippets = tx.snippets ∧
    (∀ r ∈ tx.tags, r ∈ tx1.tags) ∧
    (∀ p ∈ tx.snippetTags, p ∈ tx1.snippetTags) ∧
    assocName tx1 sid t := by
  unfold createTagStep upsertTag at h
  cases hf : tx.tags.find? (fun tg => tg.name = t) with
  | some tg =>
      rw [hf] at h
      simp only at h
      obtain ⟨hsn, htg, _, hmono, hpair, _⟩ := insertSnippetTagIgnore_ok _ _ _ _ h
      have htgname : tg.name = t := by simpa using List.find?_some hf
      have htgmem : tg ∈ tx.tags := List.mem_of_find?_eq_some hf
      exact ⟨hsn, fun r hr => htg ▸ hr, hmono, ⟨tg, htg ▸ htgmem, htgname, hpair⟩⟩
  | none =>
      rw [hf] at h
      simp only at h
      obtain ⟨hsn, htg, _, hmono, hpair, _⟩ := insertSnippetTagIgnore_ok _ _ _ _ h
      refine ⟨hsn, fun r hr => htg ▸ List.mem_append_left _ hr, hmono, ?_⟩
      exact ⟨⟨tx.nextId, t⟩, htg ▸ List.mem_append_right _ (by simp), rfl, hpair⟩

/-- Full specification of a `Create`-loop step under the tag invariants:
it succeeds whenever the snippet row exists, preserves the snippets table
and the invariants, and the associated-name set of the snippet grows by
exactly the processed name. -/
theorem createTagStep_spec (sid : Nat) (t : String) (tx : DB)
    (hs : tx.hasSnippet sid = true) (hok : TagsOK tx) :
    ∃ tx1, createTagStep sid tx t = .ok tx1 ∧
      tx1.snippets = tx.snippets ∧ TagsOK tx1 ∧
      (∀ name, assocName tx1 sid name ↔ (assocName tx sid name ∨ name = t)) := by
  unfold createTagStep upsertTag
  cases hf : tx.tags.find? (fun tg => tg.name = t) with
  | some tg =>
      have htgname : tg.name = t := by simpa using List.find?_some hf
      have htgmem : tg ∈ tx.tags := List.mem_of_find?_eq_some hf
      have htid : tx.hasTagId tg.id = true := by
        unfold DB.hasTagId
        exact List.any_eq_true.mpr ⟨tg, htgmem, by simp⟩
      obtain ⟨tx1, h1⟩ := insertSnippetTagIgnore_isOk tx sid tg.id hs htid
      obtain ⟨hsn, htg, hnx, hmono, hpair, hsub⟩ := insertSnippetTagIgnore_ok _ _ _ _ h1
      refine ⟨tx1, by simp only; exact h1, hsn, ?_, ?_⟩
      · refine ⟨htg ▸ hok.idsNodup, htg ▸ hok.namesNodup, ?_, ?_⟩
        · intro r hr; rw [htg] at hr; rw [hnx]; exact hok.fresh r hr
        · intro p hp
          rw [hnx]
          rcases hsub p hp with h2 | h2
          · exact hok.freshSt p h2
          · rw [h2]; exact hok.fresh tg htgmem
      · intro name
        constructor
        · rintro ⟨r, hr, hname, hp⟩
          rw [htg] at hr
          rcases hsub _ hp with h2 | h2
          · exact .inl ⟨r, hr, hname, h2⟩
          · have hrid : r.id = tg.id := by
              have := congrArg Prod.snd h2; simpa using this
            have : r = tg :=
              List.inj_on_of_nodup_map hok.idsNodup hr htgmem hrid
            exact .inr (by rw [← hname, this, htgname])
        · rintro (ha | he)
          · exact assocName_mono tx tx1 (fun r hr => htg ▸ hr) hmono sid name ha
          · subst he
            exact ⟨tg, htg ▸ htgmem, htgname, hpair⟩
  | none =>
      have hnone : ∀ tg ∈ tx.tags, ¬ (tg.name = t) := by
        intro tg htg
        have := List.find?_eq_none.mp hf tg htg
        simpa using this
      set txi : DB :=
        { tx with tags := tx.tags ++ [⟨tx.nextId, t⟩], nextId := tx.nextId + 1 } with htxi
      have hsi : txi.hasSnippet sid = true := hs
      have htidi : txi.hasTagId tx.nextId = true := by
        unfold DB.hasTagId
        exact List.any_eq_true.mpr ⟨⟨tx.nextId, t⟩, by simp [htxi], by simp⟩
      obtain ⟨tx1, h1⟩ := insertSnippetTagIgnore_isOk txi sid tx.nextId hsi htidi
      obtain ⟨hsn, htg, hnx, hmono, hpair, hsub⟩ := insertSnippetTagIgnore_ok _ _ _ _ h1
      refine ⟨tx1, by simp only; exact h1, hsn, ?_, ?_⟩
      · refine ⟨?_, ?_, ?_, ?_⟩
        · rw [htg]
          simp only [htxi, List.map_append, List.map_cons, List.map_nil]
          rw [List.nodup_append]
          refine ⟨hok.idsNodup, by simp, ?_⟩
          intro a ha hb
          have hb' : a = tx.nextId := by simpa using hb
          rcases List.mem_map.mp ha with ⟨r, hr, hrid⟩
          have := hok.fresh r hr
          omega
        · rw [htg]
          simp only [htxi, List.map_append, List.map_cons, List.map_nil]
          rw [List.nodup_append]
          refine ⟨hok.namesNodup, by simp, ?_⟩
          intro a ha hb
          have hb' : a = t := by simpa using hb
          rcases List.mem_map.mp ha with ⟨r, hr, hrname⟩
          exact hnone r hr (by rw [hrname, hb'])
        · intro r hr
          rw [htg] at hr
          rw [hnx]
          simp only [htxi] at hr ⊢
          rcases List.mem_append.mp hr with h2 | h2
          · have := hok.fresh r h2; omega
          · have h3 : r = (⟨tx.nextId, t⟩ : TagRow) := by simpa using h2
            rw [h3]
            show tx.nextId < tx.nextId + 1
            omega
        · intro p hp
          rw [hnx]
          simp only [htxi]
          rcases hsub p hp with h2 | h2
          · have hp2 : p ∈ tx.snippetTags := h2
            have := hok.freshSt p hp2
            omega
          · rw [h2]
            show tx.nextId < tx.nextId + 1
            omega
      · intro name
        constructor
        · rintro ⟨r, hr, hname, hp⟩
          rw [htg] at hr
          rcases List.mem_append.mp hr with h2 | h2
          · rcases hsub _ hp with h3 | h3
            · exact .inl ⟨r, h2, hname, h3⟩
            · have hrid : r.id = tx.nextId := by
                have := congrArg Prod.snd h3; simpa using this
              have := hok.fresh r h2
              omega
          · have h3 : r = (⟨tx.nextId, t⟩ : TagRow) := by simpa using h2
            exact .inr (by rw [← hname, h3])
        · rintro (ha | he)
          · refine assocName_mono tx tx1 ?_ ?_ sid name ha
            · intro r hr
              rw [htg]
              simp only [htxi]
              exact List.mem_append_left _ hr
            · intro p hp; exact hmono p hp
          · exact ⟨⟨tx.nextId, t⟩, htg ▸ List.mem_append_right _ (by simp), he.symm, hpair⟩

/-- `Create`'s tag loop succeeds whenever the snippet row exists, preserves
the snippets table and the tag invariants, and associates to the snippet
exactly the incoming names on top of the existing ones. -/
theorem createTagsLoop_spec (sid : Nat) (ts : List String) (tx : DB)
    (hs : tx.hasSnippet sid = true) (hok : TagsOK tx) :
    ∃ tx', createTagsLoop sid tx ts = .ok tx' ∧
      tx'.snippets = tx.snippets ∧ TagsOK tx' ∧
      (∀ name, assocName tx' sid name ↔ (assocName tx sid name ∨ name ∈ ts)) := by
  induction ts generalizing tx with
  | nil => exact ⟨tx, rfl, rfl, hok, by simp⟩
  | cons t rest ih =>
      obtain ⟨tx1, hstep, hsn, hok1, hchar⟩ := createTagStep_spec sid t tx hs hok
      have hs1 : tx1.hasSnippet sid = true := by
        rw [hasSnippet_congr tx1 tx hsn sid]; exact hs
      obtain ⟨tx', hloop, hsn', hok', hchar'⟩ := ih tx1 hs1 hok1
      refine ⟨tx', ?_, hsn'.trans hsn, hok', ?_⟩
      · simp only [createTagsLoop]
        rw [hstep]
        exact hloop
      · intro name
        rw [hchar' name, hchar name]
        simp only [List.mem_cons]
        tauto

/-- What a successful run of `Create`'s tag loop guarantees without any
invariant: snippets untouched, tags and associations only grow, every
processed name associated. -/
theorem createTagsLoop_ok_basic (sid : Nat) (ts : List String) (tx tx' : DB)
    (h : createTagsLoop sid tx ts = .ok tx') :
    tx'.snippets = tx.snippets ∧
    (∀ r ∈ tx.tags, r ∈ tx'.tags) ∧
    (∀ p ∈ tx.snippetTags, p ∈ tx'.snippetTags) ∧
    (∀ t ∈ ts, assocName tx' sid t) := by
  induction ts generalizing tx with
  | nil =>
      simp only [createTagsLoop] at h
      cases h
      exact ⟨rfl, fun r hr => hr, fun p hp => hp, by simp⟩
  | cons t rest ih =>
      simp only [createTagsLoop] at h
      cases hstep : createTagStep sid tx t with
      | error e => rw [hstep] at h; cases h
      | ok tx1 =>
          rw [hstep] at h
          obtain ⟨hsn', htags', hst', hassoc'⟩ := ih tx1 h
          obtain ⟨hsn, htags, hst, hassoc⟩ := createTagStep_ok_basic sid t tx tx1 hstep
          refine ⟨hsn'.trans hsn, fun r hr => htags' r (htags r hr),
            fun p hp => hst' p (hst p hp), ?_⟩
          intro u hu
          rcases List.mem_cons.mp hu with rfl | hu
          · exact assocName_mono tx1 tx' htags' hst' sid u hassoc
          · exact hassoc' u hu

/-- Success shape of the bare tag insert used by `Update`'s create-tag
branch. -/
theorem insertTagStrict_ok (tx txa : DB) (tid : Nat) (name : String)
    (h : insertTagStrict tx tid name = .ok txa) :
    txa = { tx with tags := tx.tags ++ [⟨tid, name⟩] } ∧
    tx.hasTagId tid = false ∧ (∀ r ∈ tx.tags, ¬ (r.name = name)) := by
  unfold insertTagStrict at h
  split at h
  · cases h
  split at h
  · cases h
  · cases h
    refine ⟨rfl, ?_, ?_⟩
    · exact Bool.not_eq_true _ ▸ (by assumption)
    · have hany : ¬ (tx.tags.any (fun t => t.name = name)) = true := by assumption
      intro r hr he
      exact hany (List.any_eq_true.mpr ⟨r, hr, by simp [he]⟩)

/-- With duplicate-free tag names, `find?` by a member row's name returns
that row. -/
theorem find?_name_of_mem (tags : List TagRow) (r : TagRow)
    (hnd : (tags.map (fun t => t.name)).Nodup) (hr : r ∈ tags) :
    tags.find? (fun t => t.name = r.name) = some r := by
  induction tags with
  | nil => cases hr
  | cons a l ih =>
      simp only [List.map_cons, List.nodup_cons] at hnd
      rcases List.mem_cons.mp hr with h | h
      · subst h; simp
      · have hne : ¬ (a.name = r.name) := by
          intro he
          exact hnd.1 (he ▸ List.mem_map_of_mem (fun t => t.name) h)
        simpa [List.find?_cons, hne] using ih hnd.2 h

/-- What a successful `Update`-loop step guarantees without any invariant:
snippets untouched, tags and associations only grow, the processed name
associated. -/
theorem updateTagStep_ok_basic (sid : Nat) (t : String) (tx tx1 : DB)
    (h : updateTagStep sid tx t = .ok tx1) :
    tx1.snippets = tx.snippets ∧
    (∀ r ∈ tx.tags, r ∈ tx1.tags) ∧
    (∀ p ∈ tx.snippetTags, p ∈ tx1.snippetTags) ∧
    assocName tx1 sid t := by
  unfold updateTagStep at h
  cases hf : tx.tagIdOf t with
  | some tid =>
      rw [hf] at h
      obtain ⟨h1, _, _, hnp⟩ := insertSnippetTagStrict_ok _ _ _ _ h
      rcases Option.map_eq_some'.mp hf with ⟨r, hfr, hrid⟩
      have hrname : r.name = t := by simpa using List.find?_some hfr
      have hrmem : r ∈ tx.tags := List.mem_of_find?_eq_some hfr
      subst h1
      refine ⟨rfl, fun r hr => hr, fun p hp => List.mem_append_left _ hp, ?_⟩
      exact ⟨r, hrmem, hrname, by rw [hrid]; exact List.mem_append_right _ (by simp)⟩
  | none =>
      rw [hf] at h
      cases hins : insertTagStrict tx tx.nextId t with
      | error e => rw [hins] at h; cases h
      | ok txa =>
          rw [hins] at h
          obtain ⟨ha, _, _⟩ := insertTagStrict_ok _ _ _ _ hins
          obtain ⟨h1, _, _, hnp⟩ := insertSnippetTagStrict_ok _ _ _ _ h
          subst h1
          subst ha
          refine ⟨rfl, fun r hr => List.mem_append_left _ hr,
            fun p hp => List.mem_append_left _ hp, ?_⟩
          exact ⟨⟨tx.nextId, t⟩, List.mem_append_right _ (by simp), rfl,
            List.mem_append_right _ (by simp)⟩

/-- Full specification of an `Update`-loop step under the tag invariants:
when the snippet row exists and the name is not yet associated, it succeeds,
preserves the snippets table and the invariants, and grows the snippet's
associated-name set by exactly the processed name. -/
theorem updateTagStep_spec (sid : Nat) (t : String) (tx : DB)
    (hs : tx.hasSnippet sid = true) (hok : TagsOK tx)
    (hna : ¬ assocName tx sid t) :
    ∃ tx1, updateTagStep sid tx t = .ok tx1 ∧
      tx1.snippets = tx.snippets ∧ TagsOK tx1 ∧
      (∀ name, assocName tx1 sid name ↔ (assocName tx sid name ∨ name = t)) := by
  unfold updateTagStep
  cases hf : tx.tagIdOf t with
  | some tid =>
      rcases Option.map_eq_some'.mp hf with ⟨r, hfr, hrid⟩
      have hrname : r.name = t := by simpa using List.find?_some hfr
      have hrmem : r ∈ tx.tags := List.mem_of_find?_eq_some hfr
      have htid : tx.hasTagId tid = true := by
        unfold DB.hasTagId
        exact List.any_eq_true.mpr ⟨r, hrmem, by simp [hrid]⟩
      have hnp : (sid, tid) ∉ tx.snippetTags := by
        intro hp
        exact hna ⟨r, hrmem, hrname, hrid ▸ hp⟩
      have hins : insertSnippetTagStrict tx sid tid =
          .ok { tx with snippetTags := tx.snippetTags ++ [(sid, tid)] } := by
        unfold insertSnippetTagStrict
        rw [hs, htid]
        simp [hnp]
      refine ⟨_, hins, rfl, ?_, ?_⟩
      · refine ⟨hok.idsNodup, hok.namesNodup, hok.fresh, ?_⟩
        intro p hp
        rcases List.mem_append.mp hp with h2 | h2
        · exact hok.freshSt p h2
        · have h3 : p = (sid, tid) := by simpa using h2
          rw [h3, ← hrid]
          exact hok.fresh r hrmem
      · intro name
        constructor
        · rintro ⟨r', hr', hname, hp⟩
          rcases List.mem_append.mp hp with h2 | h2
          · exact .inl ⟨r', hr', hname, h2⟩
          · have h3 : r'.id = tid := by
              have h4 : (sid, r'.id) = (sid, tid) := by simpa using h2
              have := congrArg Prod.snd h4; simpa using this
            have h5 : r' = r :=
              List.inj_on_of_nodup_map hok.idsNodup hr' hrmem (h3.trans hrid.symm)
            exact .inr (by rw [← hname, h5, hrname])
        · rintro (ha | he)
          · rcases ha with ⟨r', hr', hname, hp⟩
            exact ⟨r', hr', hname, List.mem_append_left _ hp⟩
          · exact ⟨r, hrmem, hrname.trans he.symm, hrid ▸ List.mem_append_right _ (by simp)⟩
  | none =>
      have hnone : ∀ tg ∈ tx.tags, ¬ (tg.name = t) := by
        intro tg htg he
        have h2 : tx.tags.find? (fun tg => tg.name = t) = none := by
          unfold DB.tagIdOf at hf
          exact Option.map_eq_none'.mp hf
        have := List.find?_eq_none.mp h2 tg htg
        simp at this
        exact this he
      have hnotid : tx.hasTagId tx.nextId = false := by
        rw [Bool.eq_false_iff]
        intro h2
        unfold DB.hasTagId at h2
        rcases List.any_eq_true.mp h2 with ⟨r, hr, he⟩
        have : r.id = tx.nextId := by simpa using he
        have := hok.fresh r hr
        omega
      have hnoname : (tx.tags.any (fun tg => tg.name = t)) = false := by
        rw [Bool.eq_false_iff]
        intro h2
        rcases List.any_eq_true.mp h2 with ⟨r, hr, he⟩
        exact hnone r hr (by simpa using he)
      have hins : insertTagStrict tx tx.nextId t =
          .ok { tx with tags := tx.tags ++ [⟨tx.nextId, t⟩] } := by
        unfold insertTagStrict
        rw [hnotid, hnoname]
        simp
      rw [hins]
      refine ⟨⟨tx.snippets, tx.tags ++ [⟨tx.nextId, t⟩],
        tx.snippetTags ++ [(sid, tx.nextId)], tx.nextId + 1⟩, ?_, rfl, ?_, ?_⟩
      · show insertSnippetTagStrict
          ⟨tx.snippets, tx.tags ++ [⟨tx.nextId, t⟩], tx.snippetTags, tx.nextId + 1⟩
          sid tx.nextId = _
        have hsb : (⟨tx.snippets, tx.tags ++ [⟨tx.nextId, t⟩], tx.snippetTags,
            tx.nextId + 1⟩ : DB).hasSnippet sid = true := hs
        have htidb : (⟨tx.snippets, tx.tags ++ [⟨tx.nextId, t⟩], tx.snippetTags,
            tx.nextId + 1⟩ : DB).hasTagId tx.nextId = true := by
          unfold DB.hasTagId
          exact List.any_eq_true.mpr ⟨⟨tx.nextId, t⟩, by simp, by simp⟩
        have hnpb : (sid, tx.nextId) ∉ tx.snippetTags := by
          intro hp
          have := hok.freshSt _ hp
          simp at this
        unfold insertSnippetTagStrict
        rw [hsb, htidb]
        simp [hnpb]
      · refine ⟨?_, ?_, ?_, ?_⟩
        · show ((tx.tags ++ [(⟨tx.nextId, t⟩ : TagRow)]).map (fun tg : TagRow => tg.id)).Nodup
          simp only [List.map_append, List.map_cons, List.map_nil]
          rw [List.nodup_append]
          refine ⟨hok.idsNodup, by simp, ?_⟩
          intro a ha hb
          have hb' : a = tx.nextId := by simpa using hb
          rcases List.mem_map.mp ha with ⟨r, hr, hrid⟩
          have := hok.fresh r hr
          omega
        · show ((tx.tags ++ [(⟨tx.nextId, t⟩ : TagRow)]).map (fun tg : TagRow => tg.name)).Nodup
          simp only [List.map_append, List.map_cons, List.map_nil]
          rw [List.nodup_append]
          refine ⟨hok.namesNodup, by simp, ?_⟩
          intro a ha hb
          have hb' : a = t := by simpa using hb
          rcases List.mem_map.mp ha with ⟨r, hr, hrname⟩
          exact hnone r hr (by rw [hrname, hb'])
        · show ∀ r ∈ tx.tags ++ [⟨tx.nextId, t⟩], r.id < tx.nextId + 1
          intro r hr
          rcases List.mem_append.mp hr with h2 | h2
          · have := hok.fresh r h2; omega
          · have h3 : r = (⟨tx.nextId, t⟩ : TagRow) := by simpa using h2
            rw [h3]
            show tx.nextId < tx.nextId + 1
            omega
        · show ∀ p ∈ tx.snippetTags ++ [(sid, tx.nextId)], p.2 < tx.nextId + 1
          intro p hp
          rcases List.mem_append.mp hp with h2 | h2
          · have := hok.freshSt p h2; omega
          · have h3 : p = (sid, tx.nextId) := by simpa using h2
            rw [h3]
            show tx.nextId < tx.nextId + 1
            omega
      · intro name
        constructor
        · rintro ⟨r', hr', hname, hp⟩
          have hr'' : r' ∈ tx.tags ++ [⟨tx.nextId, t⟩] := hr'
          rcases List.mem_append.mp hr'' with h2 | h2
          · have hp' : (sid, r'.id) ∈ tx.snippetTags ++ [(sid, tx.nextId)] := hp
            rcases List.mem_append.mp hp' with h3 | h3
            · exact .inl ⟨r', h2, hname, h3⟩
            · have h4 : r'.id = tx.nextId := by
                have h5 : (sid, r'.id) = (sid, tx.nextId) := by simpa using h3
                have := congrArg Prod.snd h5; simpa using this
              have := hok.fresh r' h2
              omega
          · have h3 : r' = (⟨tx.nextId, t⟩ : TagRow) := by simpa using h2
            exact .inr (by rw [← hname, h3])
        · rintro (ha | he)
          · rcases ha with ⟨r', hr', hname, hp⟩
            refine ⟨r', ?_, hname, ?_⟩
            · show r' ∈ tx.tags ++ [⟨tx.nextId, t⟩]
              exact List.mem_append_left _ hr'
            · show (sid, r'.id) ∈ tx.snippetTags ++ [(sid, tx.nextId)]
              exact List.mem_append_left _ hp
          · refine ⟨⟨tx.nextId, t⟩, ?_, he.symm, ?_⟩
            · show (⟨tx.nextId, t⟩ : TagRow) ∈ tx.tags ++ [⟨tx.nextId, t⟩]
              exact List.mem_append_right _ (by simp)
            · show (sid, tx.nextId) ∈ tx.snippetTags ++ [(sid, tx.nextId)]
              exact List.mem_append_right _ (by simp)

/-- When the name is already associated, `Update`'s loop step hits the
composite primary key of `snippet_tags` and fails with a unique violation. -/
theorem updateTagStep_err (sid : Nat) (t : String) (tx : DB)
    (hs : tx.hasSnippet sid = true) (hok : TagsOK tx)
    (ha : assocName tx sid t) :
    updateTagStep sid tx t = .error uniqueViolation := by
  rcases ha with ⟨r, hrmem, hrname, hpair⟩
  subst hrname
  have hf : tx.tagIdOf r.name = some r.id := by
    unfold DB.tagIdOf
    rw [find?_name_of_mem tx.tags r hok.namesNodup hrmem]
    rfl
  unfold updateTagStep
  rw [hf]
  show insertSnippetTagStrict tx sid r.id = .error uniqueViolation
  have htid : tx.hasTagId r.id = true := by
    unfold DB.hasTagId
    exact List.any_eq_true.mpr ⟨r, hrmem, by simp⟩
  unfold insertSnippetTagStrict
  rw [hs, htid]
  simp [hpair]

/-- A successful `Update`-loop step certifies that the name was not yet
associated and preserves the tag invariants. -/
theorem updateTagStep_ok_inv (sid : Nat) (t : String) (tx tx1 : DB)
    (hok : TagsOK tx) (h : updateTagStep sid tx t = .ok tx1) :
    ¬ assocName tx sid t ∧ TagsOK tx1 := by
  have hs : tx.hasSnippet sid = true := by
    unfold updateTagStep at h
    cases hf : tx.tagIdOf t with
    | some tid =>
        rw [hf] at h
        exact (insertSnippetTagStrict_ok _ _ _ _ h).2.1
    | none =>
        rw [hf] at h
        cases hins : insertTagStrict tx tx.nextId t with
        | error e => rw [hins] at h; cases h
        | ok txa =>
            rw [hins] at h
            obtain ⟨ha2, _, _⟩ := insertTagStrict_ok _ _ _ _ hins
            subst ha2
            exact (insertSnippetTagStrict_ok _ _ _ _ h).2.1
  constructor
  · intro ha
    rw [updateTagStep_err sid t tx hs hok ha] at h
    cases h
  · by_cases ha : assocName tx sid t
    · rw [updateTagStep_err sid t tx hs hok ha] at h
      cases h
    · obtain ⟨tx1', h1, _, hok1, _⟩ := updateTagStep_spec sid t tx hs hok ha
      rw [h1] at h
      cases h
      exact hok1

/-- `Update`'s tag loop succeeds on a duplicate-free list of names none of
which is yet associated, preserves the snippets table and the invariants,
and associates exactly the incoming names on top of the existing ones. -/
theorem updateTagsLoop_spec (sid : Nat) (ts : List String) (tx : DB)
    (hs : tx.hasSnippet sid = true) (hok : TagsOK tx)
    (hnd : ts.Nodup) (hna : ∀ t ∈ ts, ¬ assocName tx sid t) :
    ∃ tx', updateTagsLoop sid tx ts = .ok tx' ∧
      tx'.snippets = tx.snippets ∧ TagsOK tx' ∧
      (∀ name, assocName tx' sid name ↔ (assocName tx sid name ∨ name ∈ ts)) := by
  induction ts generalizing tx with
  | nil => exact ⟨tx, rfl, rfl, hok, by simp⟩
  | cons t rest ih =>
      obtain ⟨tx1, hstep, hsn, hok1, hchar⟩ :=
        updateTagStep_spec sid t tx hs hok (hna t (by simp))
      have hs1 : tx1.hasSnippet sid = true := by
        rw [hasSnippet_congr tx1 tx hsn sid]; exact hs
      have hnd1 := List.nodup_cons.mp hnd
      have hna1 : ∀ u ∈ rest, ¬ assocName tx1 sid u := by
        intro u hu hau
        rcases (hchar u).mp hau with h2 | h2
        · exact hna u (by simp [hu]) h2
        · exact hnd1.1 (h2 ▸ hu)
      obtain ⟨tx', hloop, hsn', hok', hchar'⟩ := ih tx1 hs1 hok1 hnd1.2 hna1
      refine ⟨tx', ?_, hsn'.trans hsn, hok', ?_⟩
      · simp only [updateTagsLoop]
        rw [hstep]
        exact hloop
      · intro name
        rw [hchar' name, hchar name]
        simp only [List.mem_cons]
        tauto

/-- What a successful run of `Update`'s tag loop guarantees without any
invariant. -/
theorem updateTagsLoop_ok_basic (sid : Nat) (ts : List String) (tx tx' : DB)
    (h : updateTagsLoop sid tx ts = .ok tx') :
    tx'.snippets = tx.snippets ∧
    (∀ r ∈ tx.tags, r ∈ tx'.tags) ∧
    (∀ p ∈ tx.snippetTags, p ∈ tx'.snippetTags) ∧
    (∀ t ∈ ts, assocName tx' sid t) := by
  induction ts generalizing tx with
  | nil =>
      simp only [updateTagsLoop] at h
      cases h
      exact ⟨rfl, fun r hr => hr, fun p hp => hp, by simp⟩
  | cons t rest ih =>
      simp only [updateTagsLoop] at h
      cases hstep : updateTagStep sid tx t with
      | error e => rw [hstep] at h; cases h
      | ok tx1 =>
          rw [hstep] at h
          obtain ⟨hsn', htags', hst', hassoc'⟩ := ih tx1 h
          obtain ⟨hsn, htags, hst, hassoc⟩ := updateTagStep_ok_basic sid t tx tx1 hstep
          refine ⟨hsn'.trans hsn, fun r hr => htags' r (htags r hr),
            fun p hp => hst' p (hst p hp), ?_⟩
          intro u hu
          rcases List.mem_cons.mp hu with rfl | hu
          · exact assocName_mono tx1 tx' htags' hst' sid u hassoc
          · exact hassoc' u hu

/-- A successful run of `Update`'s tag loop certifies that the processed
list was duplicate-free and that none of its names was associated at the
start. -/
theorem updateTagsLoop_ok_inv (sid : Nat) (ts : List String) (tx tx' : DB)
    (hok : TagsOK tx) (h : updateTagsLoop sid tx ts = .ok tx') :
    ts.Nodup ∧ ∀ u ∈ ts, ¬ assocName tx sid u := by
  induction ts generalizing tx with
  | nil => simp
  | cons t rest ih =>
      simp only [updateTagsLoop] at h
      cases hstep : updateTagStep sid tx t with
      | error e => rw [hstep] at h; cases h
      | ok tx1 =>
          rw [hstep] at h
          obtain ⟨hna, hok1⟩ := updateTagStep_ok_inv sid t tx tx1 hok hstep
          obtain ⟨hsn, htags, hst, hassoc1⟩ := updateTagStep_ok_basic sid t tx tx1 hstep
          obtain ⟨hndrest, hnarest⟩ := ih tx1 hok1 h
          constructor
          · refine List.nodup_cons.mpr ⟨?_, hndrest⟩
            intro htr
            exact hnarest t htr hassoc1
          · intro u hu
            rcases List.mem_cons.mp hu with rfl | hu
            · exact hna
            · intro hau
              exact hnarest u hu (assocName_mono tx tx1 htags hst sid u hau)

/-- Success shape of the snippet-row insert. -/
theorem insertSnippetRow_ok (db tx : DB) (row : SnippetRow)
    (h : insertSnippetRow db row = .ok tx) :
    tx = { db with snippets := db.snippets ++ [row] } ∧
    db.hasSnippet row.id = false := by
  unfold insertSnippetRow at h
  split at h
  · cases h
  · cases h
    exact ⟨rfl, Bool.eq_false_iff.mpr (by assumption)⟩

/-- Under the schema's foreign keys, a missing snippet id has no
associations. -/
theorem no_assoc_of_not_hasSnippet (db : DB) (h : WF db) (sid : Nat)
    (hs : db.hasSnippet sid = false) (name : String) :
    ¬ assocName db sid name := by
  rintro ⟨r, hr, hname, hpair⟩
  have h2 : db.hasSnippet sid = true := h.stFkSnip (sid, r.id) hpair
  rw [hs] at h2
  cases h2

/-- With a fresh id the snippet insert goes through and `createTx` reduces
to the tag loop over the extended snippets table. -/
theorem createTx_eq (db : DB) (s : Snippet) (now : Nat)
    (hfresh : db.hasSnippet s.id = false) :
    createTx db s now = createTagsLoop s.id
      { db with snippets := db.snippets ++
        [⟨s.id, s.title, s.description, s.language, s.code, s.userId, s.folderId,
          now, now⟩] } s.tags := by
  unfold createTx insertSnippetRow
  rw [show db.hasSnippet (⟨s.id, s.title, s.description, s.language, s.code,
    s.userId, s.folderId, now, now⟩ : SnippetRow).id = false from hfresh]
  simp

/-- Main success specification of `Create`: for a store satisfying the tag
invariants, a fresh snippet id and no pre-existing associations, `Create`
commits; the new store appends exactly one snippet row (both timestamps set
to `now`), keeps the invariants, and associates to the new id exactly the
incoming tag names. -/
theorem Create_spec (db : DB) (s : Snippet) (now : Nat)
    (hok : TagsOK db) (hfresh : db.hasSnippet s.id = false)
    (hnoassoc : ∀ name, ¬ assocName db s.id name) :
    ∃ db', Create db s now = (db', none) ∧
      db'.snippets = db.snippets ++
        [⟨s.id, s.title, s.description, s.language, s.code, s.userId, s.folderId,
          now, now⟩] ∧
      TagsOK db' ∧
      (∀ name, assocName db' s.id name ↔ name ∈ s.tags) := by
  have hs0 : ({ db with snippets := db.snippets ++
      [⟨s.id, s.title, s.description, s.language, s.code, s.userId, s.folderId,
        now, now⟩] } : DB).hasSnippet s.id = true := by
    unfold DB.hasSnippet
    exact List.any_eq_true.mpr
      ⟨⟨s.id, s.title, s.description, s.language, s.code, s.userId, s.folderId,
        now, now⟩, List.mem_append_right _ (by simp), by simp⟩
  have hok0 : TagsOK ({ db with snippets := db.snippets ++
      [⟨s.id, s.title, s.description, s.language, s.code, s.userId, s.folderId,
        now, now⟩] } : DB) :=
    ⟨hok.idsNodup, hok.namesNodup, hok.fresh, hok.freshSt⟩
  obtain ⟨tx', hloop, hsn', hok', hchar'⟩ := createTagsLoop_spec s.id s.tags _ hs0 hok0
  refine ⟨tx', ?_, hsn', hok', ?_⟩
  · unfold Create
    rw [createTx_eq db s now hfresh, hloop]
  · intro name
    rw [hchar' name]
    constructor
    · rintro (h | h)
      · exact absurd h (hnoassoc name)
      · exact h
    · exact fun h => .inr h

/-- `Create` never commits partially: on any error the returned state is the
original one. -/
theorem Create_err_rollback (db db' : DB) (s : Snippet) (now : Nat) (e : String)
    (h : Create db s now = (db', some e)) : db' = db := by
  unfold Create at h
  cases hc : createTx db s now with
  | error e2 =>
      rw [hc] at h
      injection h with h1 h2
      exact h1.symm
  | ok tx =>
      rw [hc] at h
      injection h with h1 h2
      cases h2

/-- On a committed `Create`, the snippet row is present and every incoming
tag name is associated (no hypotheses beyond success). -/
theorem Create_ok_basic (db db' : DB) (s : Snippet) (now : Nat)
    (h : Create db s now = (db', none)) :
    db'.hasSnippet s.id = true ∧ (∀ t ∈ s.tags, assocName db' s.id t) := by
  unfold Create at h
  cases hc : createTx db s now with
  | error e2 =>
      rw [hc] at h
      injection h with h1 h2
      cases h2
  | ok tx =>
      rw [hc] at h
      injection h with h1 h2
      subst h1
      unfold createTx at hc
      cases hi : insertSnippetRow db
          ⟨s.id, s.title, s.description, s.language, s.code, s.userId, s.folderId,
            now, now⟩ with
      | error e2 => rw [hi] at hc; cases hc
      | ok tx0 =>
          rw [hi] at hc
          obtain ⟨h0, _⟩ := insertSnippetRow_ok db tx0 _ hi
          subst h0
          obtain ⟨hsn, _, _, hassoc⟩ := createTagsLoop_ok_basic s.id s.tags _ _ hc
          constructor
          · rw [hasSnippet_congr _ _ hsn s.id]
            unfold DB.hasSnippet
            exact List.any_eq_true.mpr
              ⟨⟨s.id, s.title, s.description, s.language, s.code, s.userId,
                s.folderId, now, now⟩, List.mem_append_right _ (by simp), by simp⟩
          · exact hassoc

/-- On a committed `Create`, the snippets table is exactly the old one plus
the new row with both timestamps set to `now` (the payload's timestamps are
ignored). -/
theorem Create_ok_snippets (db db' : DB) (s : Snippet) (now : Nat)
    (h : Create db s now = (db', none)) :
    db'.snippets = db.snippets ++
      [⟨s.id, s.title, s.description, s.language, s.code, s.userId, s.folderId,
        now, now⟩] := by
  unfold Create at h
  cases hc : createTx db s now with
  | error e2 =>
      rw [hc] at h
      injection h with h1 h2
      cases h2
  | ok tx =>
      rw [hc] at h
      injection h with h1 h2
      subst h1
      unfold createTx at hc
      cases hi : insertSnippetRow db
          ⟨s.id, s.title, s.description, s.language, s.code, s.userId, s.folderId,
            now, now⟩ with
      | error e2 => rw [hi] at hc; cases hc
      | ok tx0 =>
          rw [hi] at hc
          obtain ⟨h0, _⟩ := insertSnippetRow_ok db tx0 _ hi
          subst h0
          exact (createTagsLoop_ok_basic s.id s.tags _ _ hc).1

/-- `updateTx` is definitionally the tag loop run after the row rewrite and
the association delete. -/
theorem updateTx_eq (db : DB) (s : Snippet) (now : Nat) :
    updateTx db s now = updateTagsLoop s.id
      (deleteSnippetTags (updateSnippetRow db s now) s.id) s.tags := rfl

theorem hasSnippet_updateSnippetRow (db : DB) (s : Snippet) (now sid : Nat) :
    (updateSnippetRow db s now).hasSnippet sid = db.hasSnippet sid := by
  unfold updateSnippetRow DB.hasSnippet
  simp only [List.any_map]
  congr 1
  funext r
  by_cases h : r.id = s.id <;> simp [h, Function.comp]

theorem tagsOK_updateTx0 (db : DB) (s : Snippet) (now : Nat) (hok : TagsOK db) :
    TagsOK (deleteSnippetTags (updateSnippetRow db s now) s.id) := by
  refine ⟨hok.idsNodup, hok.namesNodup, hok.fresh, ?_⟩
  intro p hp
  have hp' : p ∈ db.snippetTags := List.mem_of_mem_filter hp
  exact hok.freshSt p hp'

/-- After `DELETE FROM snippet_tags WHERE snippet_id = $1` the snippet has
no associations. -/
theorem no_assoc_after_delete (tx : DB) (sid : Nat) (name : String) :
    ¬ assocName (deleteSnippetTags tx sid) sid name := by
  rintro ⟨r, hr, hname, hpair⟩
  have h2 := (List.mem_filter.mp hpair).2
  simp at h2

/-- Main success specification of `Update` on an existing snippet with a
duplicate-free tag list: it commits; the snippets table is rewritten
pointwise (only the matching row changes, in exactly the six updated
columns); the invariants are kept; the snippet's associated names are
exactly the incoming ones. -/
theorem Update_spec (db : DB) (s : Snippet) (now : Nat)
    (hok : TagsOK db) (hs : db.hasSnippet s.id = true) (hnd : s.tags.Nodup) :
    ∃ db', Update db s now = (db', none) ∧
      db'.snippets = db.snippets.map (fun r =>
        if r.id = s.id then
          { r with title := s.title, description := s.description,
                   language := s.language, code := s.code,
                   folderId := s.folderId, updatedAt := now }
        else r) ∧
      TagsOK db' ∧
      (∀ name, assocName db' s.id name ↔ name ∈ s.tags) := by
  have hs0 : (deleteSnippetTags (updateSnippetRow db s now) s.id).hasSnippet s.id
      = true := by
    show (updateSnippetRow db s now).hasSnippet s.id = true
    rw [hasSnippet_updateSnippetRow]
    exact hs
  obtain ⟨tx', hloop, hsn', hok', hchar'⟩ :=
    updateTagsLoop_spec s.id s.tags _ hs0 (tagsOK_updateTx0 db s now hok) hnd
      (fun t _ => no_assoc_after_delete _ s.id t)
  refine ⟨tx', ?_, ?_, hok', ?_⟩
  · unfold Update
    rw [updateTx_eq, hloop]
  · rw [hsn']
    rfl
  · intro name
    rw [hchar' name]
    constructor
    · rintro (h | h)
      · exact absurd h (no_assoc_after_delete _ _ _)
      · exact h
    · exact fun h => .inr h

/-- `Update` on an existing snippet whose tag list repeats a name fails
(its bare association insert violates the composite primary key) and rolls
back to the original state. -/
theorem Update_err_dup (db : DB) (s : Snippet) (now : Nat)
    (hok : TagsOK db) (hnd : ¬ s.tags.Nodup) :
    ∃ e, Update db s now = (db, some e) := by
  unfold Update
  cases hc : updateTx db s now with
  | error e => exact ⟨e, rfl⟩
  | ok tx =>
      exfalso
      rw [updateTx_eq] at hc
      exact hnd
        (updateTagsLoop_ok_inv s.id s.tags _ tx (tagsOK_updateTx0 db s now hok) hc).1

/-- `Update` never commits partially: on any error the returned state is
the original one. -/
theorem Update_err_rollback (db db' : DB) (s : Snippet) (now : Nat) (e : String)
    (h : Update db s now = (db', some e)) : db' = db := by
  unfold Update at h
  cases hc : updateTx db s now with
  | error e2 =>
      rw [hc] at h
      injection h with h1 h2
      exact h1.symm
  | ok tx =>
      rw [hc] at h
      injection h with h1 h2
      cases h2

/-- On a committed `Update`, every incoming tag name is associated (no
hypotheses beyond success). -/
theorem Update_ok_basic (db db' : DB) (s : Snippet) (now : Nat)
    (h : Update db s now = (db', none)) :
    ∀ t ∈ s.tags, assocName db' s.id t := by
  unfold Update at h
  cases hc : updateTx db s now with
  | error e2 =>
      rw [hc] at h
      injection h with h1 h2
      cases h2
  | ok tx =>
      rw [hc] at h
      injection h with h1 h2
      subst h1
      rw [updateTx_eq] at hc
      exact (updateTagsLoop_ok_basic s.id s.tags _ _ hc).2.2.2

/-- On a committed `Update`, the snippets table is the old one rewritten
pointwise: the matching row gets the six updated columns (keeping its
`created_at` and `user_id`), every other row is untouched. -/
theorem Update_ok_snippets (db db' : DB) (s : Snippet) (now : Nat)
    (h : Update db s now = (db', none)) :
    db'.snippets = db.snippets.map (fun r =>
      if r.id = s.id then
        { r with title := s.title, description := s.description,
                 language := s.language, code := s.code,
                 folderId := s.folderId, updatedAt := now }
      else r) := by
  unfold Update at h
  cases hc : updateTx db s now with
  | error e2 =>
      rw [hc] at h
      injection h with h1 h2
      cases h2
  | ok tx =>
      rw [hc] at h
      injection h with h1 h2
      subst h1
      rw [updateTx_eq] at hc
      have := (updateTagsLoop_ok_basic s.id s.tags _ _ hc).1
      rw [this]
      rfl

/-- With duplicate-free tag names, filtering by a member row's name leaves
exactly that row. -/
theorem filter_name_singleton (tags : List TagRow) (r : TagRow)
    (hnd : (tags.map (fun t => t.name)).Nodup) (hr : r ∈ tags) :
    tags.filter (fun t => t.name = r.name) = [r] := by
  induction tags with
  | nil => cases hr
  | cons a l ih =>
      simp only [List.map_cons, List.nodup_cons] at hnd
      rcases List.mem_cons.mp hr with rfl | h
      · have hnil : l.filter (fun t => t.name = r.name) = [] := by
          rw [List.filter_eq_nil_iff]
          intro t ht he
          have he' : t.name = r.name := by simpa using he
          exact hnd.1 (he' ▸ List.mem_map_of_mem (fun t => t.name) ht)
        simp [List.filter_cons, hnil]
      · have hne : ¬ (a.name = r.name) := by
          intro he
          exact hnd.1 (he ▸ List.mem_map_of_mem (fun t => t.name) h)
        simpa [List.filter_cons, hne] using ih hnd.2 h

/-! ## Claims -/

/-- C1: `Create` and `Update` are atomic.  On any error the returned state
is exactly the pre-call state (`defer tx.Rollback()` — no partial
snippet-without-tags or tags-without-snippet state is committed), and on a
committed `Create` the snippet row and one association per supplied tag
name are all present together, as they are on a committed `Update`. -/
theorem claim_create_update_atomic (db db' : DB) (s : Snippet) (now : Nat) :
    (∀ e, Create db s now = (db', some e) → db' = db) ∧
    (Create db s now = (db', none) →
      db'.hasSnippet s.id = true ∧ ∀ t ∈ s.tags, assocName db' s.id t) ∧
    (∀ e, Update db s now = (db', some e) → db' = db) ∧
    (Update db s now = (db', none) → ∀ t ∈ s.tags, assocName db' s.id t) :=
  ⟨fun e h => Create_err_rollback db db' s now e h,
   fun h => Create_ok_basic db db' s now h,
   fun e h => Update_err_rollback db db' s now e h,
   fun h => Update_ok_basic db db' s now h⟩

theorem claim_create_update_atomic_witness :
    dbOne.hasSnippet sampleSnip.id = true ∧
    ∀ t ∈ sampleSnip.tags, assocName dbOne sampleSnip.id t :=
  (claim_create_update_atomic dbEmpty dbOne sampleSnip 10).2.1 (by decide)

/-- C2: the Auth Gate answers 401 — without invoking the wrapped handler —
whenever the Authorization header is absent, the token is empty after
stripping the `"Bearer "` prefix, or the token fails verification against
the process-wide secret; when the token verifies, it invokes the wrapped
handler exactly once with the request unchanged. -/
theorem claim_jwt_auth_gate {α : Type} (verify : String → Bool)
    (next : Request → α) (req : Request) :
    ((req.authHeader = "" ∨ trimBearer req.authHeader = "" ∨
        verify (trimBearer req.authHeader) = false) →
      ∃ msg, JWTAuth verify next req = (.httpError 401 msg, 0)) ∧
    (req.authHeader ≠ "" → trimBearer req.authHeader ≠ "" →
      verify (trimBearer req.authHeader) = true →
      JWTAuth verify next req = (.fromHandler (next req), 1)) := by
  constructor
  · rintro (h | h | h)
    · exact ⟨"Authorization header missing", by unfold JWTAuth; simp [h]⟩
    · by_cases h0 : req.authHeader = ""
      · exact ⟨"Authorization header missing", by unfold JWTAuth; simp [h0]⟩
      · exact ⟨"Token missing", by unfold JWTAuth; simp [h0, h]⟩
    · by_cases h0 : req.authHeader = ""
      · exact ⟨"Authorization header missing", by unfold JWTAuth; simp [h0]⟩
      · by_cases h1 : trimBearer req.authHeader = ""
        · exact ⟨"Token missing", by unfold JWTAuth; simp [h0, h1]⟩
        · exact ⟨"Invalid token", by unfold JWTAuth; simp [h0, h1, h]⟩
  · intro h0 h1 h2
    unfold JWTAuth
    simp [h0, h1, h2]

theorem claim_jwt_auth_gate_witness :
    JWTAuth (fun t => t = "tok") (fun r => r.authHeader) ⟨"Bearer tok"⟩ =
      (.fromHandler "Bearer tok", 1) :=
  (claim_jwt_auth_gate (fun t => t = "tok") (fun r => r.authHeader)
    ⟨"Bearer tok"⟩).2 (by decide) (by decide) (by decide)

/-- C3 (divergence exhibit): on a missing id, `Get` alone returns the
dedicated `"snippet not found"` signal that the handler maps to 404, while
`Delete` and `Update` silently succeed (their handlers answer 204 and 200,
never 404), contradicting the claimed distinct not-found signal for all
three operations. -/
theorem claim_notfound_divergence :
    Get dbEmpty 9 = .error "snippet not found" ∧
    getStatus (Get dbEmpty 9) = 404 ∧
    (Delete dbEmpty 9).2 = none ∧
    deleteStatus (Delete dbEmpty 9).2 = 204 ∧
    (Update dbEmpty sampleMissing 7).2 = none ∧
    updateStatus (Update dbEmpty sampleMissing 7).2 = 200 :=
  ⟨rfl, rfl, rfl, rfl, rfl, rfl⟩

/-- C4: `Update`'s tag policy is replace-all: after a committed update the
snippet's tag-name set (as returned by the `GetSnippetTags` join) is exactly
the incoming tag list, and in particular an empty incoming list leaves zero
tags. -/
theorem claim_update_replace_all (db : DB) (s : Snippet) (now : Nat)
    (hwf : WF db) (hs : db.hasSnippet s.id = true) (hnd : s.tags.Nodup) :
    ∃ db', Update db s now = (db', none) ∧
      (∀ name, name ∈ GetSnippetTags db' s.id ↔ name ∈ s.tags) ∧
      (s.tags = [] → GetSnippetTags db' s.id = []) := by
  obtain ⟨db', hup, hsn, hok', hchar⟩ :=
    Update_spec db s now (tagsOK_of_wf db hwf) hs hnd
  refine ⟨db', hup, ?_, ?_⟩
  · intro name
    rw [mem_GetSnippetTags db' s.id name hok'.idsNodup]
    exact hchar name
  · intro hnil
    rw [List.eq_nil_iff_forall_not_mem]
    intro name hmem
    have h2 := (mem_GetSnippetTags db' s.id name hok'.idsNodup).mp hmem
    rw [hchar name, hnil] at h2
    cases h2

theorem claim_update_replace_all_witness :
    ∃ db', Update dbOne sampleSnipNoTags 12 = (db', none) ∧
      (∀ name, name ∈ GetSnippetTags db' sampleSnipNoTags.id ↔
        name ∈ sampleSnipNoTags.tags) ∧
      (sampleSnipNoTags.tags = [] →
        GetSnippetTags db' sampleSnipNoTags.id = []) :=
  claim_update_replace_all dbOne sampleSnipNoTags 12
    ⟨by decide, by decide, by decide, by decide, by decide, by decide, by decide⟩
    (by decide) (by decide)

/-- C5: `Create` then `Get` on the created id returns a snippet equal to
the payload in every field except the server-assigned timestamps (both set
to the creation instant), with a tag collection equal to the payload's as a
set. -/
theorem claim_create_get_roundtrip (db : DB) (s : Snippet) (now : Nat)
    (hwf : WF db) (hfresh : db.hasSnippet s.id = false) :
    ∃ db' snip, Create db s now = (db', none) ∧ Get db' s.id = .ok snip ∧
      snip.id = s.id ∧ snip.title = s.title ∧
      snip.description = s.description ∧ snip.language = s.language ∧
      snip.code = s.code ∧ snip.userId = s.userId ∧
      snip.folderId = s.folderId ∧ snip.createdAt = now ∧
      snip.updatedAt = now ∧ (∀ t, t ∈ snip.tags ↔ t ∈ s.tags) := by
  obtain ⟨db', hcr, hsn, hok', hchar⟩ :=
    Create_spec db s now (tagsOK_of_wf db hwf) hfresh
      (no_assoc_of_not_hasSnippet db hwf s.id hfresh)
  have h1 : db.snippets.find? (fun r => r.id = s.id) = none := by
    rw [List.find?_eq_none]
    intro r hr he
    have h2 : db.hasSnippet s.id = true := by
      unfold DB.hasSnippet
      exact List.any_eq_true.mpr ⟨r, hr, he⟩
    rw [hfresh] at h2
    cases h2
  have hfind : db'.snippets.find? (fun r => r.id = s.id) = some
      ⟨s.id, s.title, s.description, s.language, s.code, s.userId, s.folderId,
        now, now⟩ := by
    rw [hsn, List.find?_append, h1]
    simp
  have hget : Get db' s.id = .ok
      ⟨s.id, s.title, s.description, s.language, s.code, s.userId, s.folderId,
        GetSnippetTags db' s.id, now, now⟩ := by
    unfold Get
    rw [hfind]
  refine ⟨db', _, hcr, hget, rfl, rfl, rfl, rfl, rfl, rfl, rfl, rfl, rfl, ?_⟩
  intro t
  rw [show (⟨s.id, s.title, s.description, s.language, s.code, s.userId,
    s.folderId, GetSnippetTags db' s.id, now, now⟩ : Snippet).tags
    = GetSnippetTags db' s.id from rfl]
  rw [mem_GetSnippetTags db' s.id t hok'.idsNodup]
  exact hchar t

theorem claim_create_get_roundtrip_witness :
    ∃ db' snip, Create dbEmpty sampleSnip 10 = (db', none) ∧
      Get db' sampleSnip.id = .ok snip ∧
      snip.id = sampleSnip.id ∧ snip.title = sampleSnip.title ∧
      snip.description = sampleSnip.description ∧
      snip.language = sampleSnip.language ∧ snip.code = sampleSnip.code ∧
      snip.userId = sampleSnip.userId ∧
      snip.folderId = sampleSnip.folderId ∧ snip.createdAt = 10 ∧
      snip.updatedAt = 10 ∧ (∀ t, t ∈ snip.tags ↔ t ∈ sampleSnip.tags) :=
  claim_create_get_roundtrip dbEmpty sampleSnip 10
    ⟨by decide, by decide, by decide, by decide, by decide, by decide, by decide⟩
    (by decide)

/-- With a duplicate-free list, filtering on equality with a member leaves
exactly that member. -/
theorem filter_eq_singleton_of_nodup {α : Type} [DecidableEq α] (l : List α)
    (a : α) (hnd : l.Nodup) (ha : a ∈ l) : l.filter (fun x => x = a) = [a] := by
  induction l with
  | nil => cases ha
  | cons b l ih =>
      rcases List.nodup_cons.mp hnd with ⟨hb, hl⟩
      rcases List.mem_cons.mp ha with rfl | h
      · have hnil : l.filter (fun x => x = a) = [] := by
          rw [List.filter_eq_nil_iff]
          intro x hx he
          have he' : x = a := by simpa using he
          exact hb (he' ▸ hx)
        simp [List.filter_cons, hnil]
      · have hne : ¬ (b = a) := fun he => hb (he ▸ h)
        simpa [List.filter_cons, hne] using ih hl h

/-- C6: `AddTag` is idempotent: with the snippet present, attaching the same
name twice succeeds both times, the second call leaves the state of the
first call unchanged, the name resolves to a single tag identity, and the
final state holds exactly one tag row with that name and exactly one
association row for the pair. -/
theorem claim_addTag_idempotent (db : DB) (sid : Nat) (name : String)
    (hwf : WF db) (hs : db.hasSnippet sid = true) :
    ∃ db1 tid, AddTag db sid name = (db1, none) ∧
      AddTag db1 sid name = (db1, none) ∧
      db1.tagIdOf name = some tid ∧
      (db1.tags.filter (fun t => t.name = name)).length = 1 ∧
      (db1.snippetTags.filter (fun p => p = (sid, tid))).length = 1 := by
  cases hf : db.tags.find? (fun t => t.name = name) with
  | some tg =>
      have htgname : tg.name = name := by simpa using List.find?_some hf
      have htgmem : tg ∈ db.tags := List.mem_of_find?_eq_some hf
      have htid : db.hasTagId tg.id = true := by
        unfold DB.hasTagId
        exact List.any_eq_true.mpr ⟨tg, htgmem, by simp⟩
      have hupsert : upsertTag db name = (db, tg.id) := by
        unfold upsertTag; rw [hf]
      have hfilter : (db.tags.filter (fun t => t.name = name)).length = 1 := by
        rw [← htgname, filter_name_singleton db.tags tg hwf.tagNamesNodup htgmem]
        rfl
      have htagid : db.tagIdOf name = some tg.id := by
        unfold DB.tagIdOf; rw [hf]; rfl
      by_cases hmem : (sid, tg.id) ∈ db.snippetTags
      · have hstep : createTagStep sid db name = .ok db := by
          unfold createTagStep
          rw [hupsert]
          show insertSnippetTagIgnore db sid tg.id = .ok db
          unfold insertSnippetTagIgnore
          rw [hs, htid]
          simp [hmem]
        refine ⟨db, tg.id, ?_, ?_, htagid, hfilter, ?_⟩
        · unfold AddTag; rw [hstep]
        · unfold AddTag; rw [hstep]
        · rw [filter_eq_singleton_of_nodup db.snippetTags (sid, tg.id)
            hwf.stNodup hmem]
          rfl
      · have hstep : createTagStep sid db name =
            .ok { db with snippetTags := db.snippetTags ++ [(sid, tg.id)] } := by
          unfold createTagStep
          rw [hupsert]
          show insertSnippetTagIgnore db sid tg.id = _
          unfold insertSnippetTagIgnore
          rw [hs, htid]
          simp [hmem]
        have hstep2 : createTagStep sid
            { db with snippetTags := db.snippetTags ++ [(sid, tg.id)] } name =
            .ok { db with snippetTags := db.snippetTags ++ [(sid, tg.id)] } := by
          unfold createTagStep
          have hupsert2 : upsertTag
              { db with snippetTags := db.snippetTags ++ [(sid, tg.id)] } name =
              ({ db with snippetTags := db.snippetTags ++ [(sid, tg.id)] }, tg.id) := by
            unfold upsertTag
            rw [show ({ db with snippetTags := db.snippetTags ++ [(sid, tg.id)] }
              : DB).tags.find? (fun t => t.name = name) = some tg from hf]
          rw [hupsert2]
          show insertSnippetTagIgnore
            { db with snippetTags := db.snippetTags ++ [(sid, tg.id)] } sid tg.id = _
          unfold insertSnippetTagIgnore
          rw [show ({ db with snippetTags := db.snippetTags ++ [(sid, tg.id)] }
              : DB).hasSnippet sid = true from hs,
            show ({ db with snippetTags := db.snippetTags ++ [(sid, tg.id)] }
              : DB).hasTagId tg.id = true from htid]
          simp
        refine ⟨{ db with snippetTags := db.snippetTags ++ [(sid, tg.id)] },
          tg.id, ?_, ?_, htagid, hfilter, ?_⟩
        · unfold AddTag; rw [hstep]
        · unfold AddTag; rw [hstep2]
        · show ((db.snippetTags ++ [(sid, tg.id)]).filter
            (fun p => p = (sid, tg.id))).length = 1
          rw [List.filter_append]
          rw [List.filter_eq_nil_iff.mpr (by
            intro p hp he
            have he' : p = (sid, tg.id) := by simpa using he
            exact hmem (he' ▸ hp))]
          simp
  | none =>
      have hnone : ∀ t ∈ db.tags, ¬ (t.name = name) := by
        intro t ht he
        have h2 := List.find?_eq_none.mp hf t ht
        simp at h2
        exact h2 he
      have hupsert : upsertTag db name =
          ((⟨db.snippets, db.tags ++ [(⟨db.nextId, name⟩ : TagRow)], db.snippetTags,
            db.nextId + 1⟩ : DB), db.nextId) := by
        unfold upsertTag; rw [hf]
      have htidA : (⟨db.snippets, db.tags ++ [(⟨db.nextId, name⟩ : TagRow)],
          db.snippetTags, db.nextId + 1⟩ : DB).hasTagId db.nextId = true := by
        unfold DB.hasTagId
        exact List.any_eq_true.mpr
          ⟨⟨db.nextId, name⟩, List.mem_append_right _ (by simp), by simp⟩
      have hnpair : (sid, db.nextId) ∉ db.snippetTags := by
        intro hp
        have h2 := (tagsOK_of_wf db hwf).freshSt _ hp
        simp at h2
      have hstep : createTagStep sid db name = .ok
          (⟨db.snippets, db.tags ++ [(⟨db.nextId, name⟩ : TagRow)],
            db.snippetTags ++ [(sid, db.nextId)], db.nextId + 1⟩ : DB) := by
        unfold createTagStep
        rw [hupsert]
        show insertSnippetTagIgnore
          (⟨db.snippets, db.tags ++ [(⟨db.nextId, name⟩ : TagRow)], db.snippetTags,
            db.nextId + 1⟩ : DB) sid db.nextId = _
        unfold insertSnippetTagIgnore
        rw [show (⟨db.snippets, db.tags ++ [(⟨db.nextId, name⟩ : TagRow)],
            db.snippetTags, db.nextId + 1⟩ : DB).hasSnippet sid = true from hs,
          htidA]
        simp [hnpair]
      have hf2 : (⟨db.snippets, db.tags ++ [(⟨db.nextId, name⟩ : TagRow)],
          db.snippetTags ++ [(sid, db.nextId)], db.nextId + 1⟩ : DB).tags.find?
          (fun t => t.name = name) = some (⟨db.nextId, name⟩ : TagRow) := by
        show (db.tags ++ [(⟨db.nextId, name⟩ : TagRow)]).find?
          (fun t => t.name = name) = some (⟨db.nextId, name⟩ : TagRow)
        rw [List.find?_append, hf]
        simp
      have hstep2 : createTagStep sid
          (⟨db.snippets, db.tags ++ [(⟨db.nextId, name⟩ : TagRow)],
            db.snippetTags ++ [(sid, db.nextId)], db.nextId + 1⟩ : DB) name = .ok
          (⟨db.snippets, db.tags ++ [(⟨db.nextId, name⟩ : TagRow)],
            db.snippetTags ++ [(sid, db.nextId)], db.nextId + 1⟩ : DB) := by
        unfold createTagStep
        have hupsert2 : upsertTag
            (⟨db.snippets, db.tags ++ [(⟨db.nextId, name⟩ : TagRow)],
              db.snippetTags ++ [(sid, db.nextId)], db.nextId + 1⟩ : DB) name =
            ((⟨db.snippets, db.tags ++ [(⟨db.nextId, name⟩ : TagRow)],
              db.snippetTags ++ [(sid, db.nextId)], db.nextId + 1⟩ : DB), db.nextId) := by
          unfold upsertTag
          rw [hf2]
        rw [hupsert2]
        show insertSnippetTagIgnore
          (⟨db.snippets, db.tags ++ [(⟨db.nextId, name⟩ : TagRow)],
            db.snippetTags ++ [(sid, db.nextId)], db.nextId + 1⟩ : DB) sid db.nextId = _
        unfold insertSnippetTagIgnore
        rw [show (⟨db.snippets, db.tags ++ [(⟨db.nextId, name⟩ : TagRow)],
            db.snippetTags ++ [(sid, db.nextId)], db.nextId + 1⟩ : DB).hasSnippet sid
            = true from hs,
          show (⟨db.snippets, db.tags ++ [(⟨db.nextId, name⟩ : TagRow)],
            db.snippetTags ++ [(sid, db.nextId)], db.nextId + 1⟩ : DB).hasTagId
            db.nextId = true from htidA]
        simp
      refine ⟨⟨db.snippets, db.tags ++ [(⟨db.nextId, name⟩ : TagRow)],
        db.snippetTags ++ [(sid, db.nextId)], db.nextId + 1⟩, db.nextId,
        ?_, ?_, ?_, ?_, ?_⟩
      · unfold AddTag; rw [hstep]
      · unfold AddTag; rw [hstep2]
      · unfold DB.tagIdOf
        rw [hf2]
        rfl
      · show ((db.tags ++ [(⟨db.nextId, name⟩ : TagRow)]).filter
          (fun t => t.name = name)).length = 1
        rw [List.filter_append]
        rw [List.filter_eq_nil_iff.mpr (by
          intro t ht he
          exact hnone t ht (by simpa using he))]
        simp
      · show ((db.snippetTags ++ [(sid, db.nextId)]).filter
          (fun p => p = (sid, db.nextId))).length = 1
        rw [List.filter_append]
        rw [List.filter_eq_nil_iff.mpr (by
          intro p hp he
          have he' : p = (sid, db.nextId) := by simpa using he
          exact hnpair (he' ▸ hp))]
        simp

theorem claim_addTag_idempotent_witness :
    ∃ db1 tid, AddTag dbOne 1 "c" = (db1, none) ∧
      AddTag db1 1 "c" = (db1, none) ∧
      db1.tagIdOf "c" = some tid ∧
      (db1.tags.filter (fun t => t.name = "c")).length = 1 ∧
      (db1.snippetTags.filter (fun p => p = (1, tid))).length = 1 :=
  claim_addTag_idempotent dbOne 1 "c"
    ⟨by decide, by decide, by decide, by decide, by decide, by decide, by decide⟩
    (by decide)

/-- C7: the column frame of `Update` and the server-assigned timestamps of
`Create`.  On a committed `Update`, every snippet row with a different id is
untouched; the matching row is rewritten in exactly the six updated columns
(title, description, language, code, folder id, `updated_at` set to the call
instant), keeping its `created_at` and `user_id`; every row of the result
originates from an old row with the same id, `created_at` and `user_id`.
On a committed `Create`, the inserted row carries `now` in both timestamp
columns regardless of the payload's timestamps. -/
theorem claim_update_frame (db db' : DB) (s : Snippet) (now : Nat) :
    (Update db s now = (db', none) →
      (∀ r ∈ db.snippets, ¬ (r.id = s.id) → r ∈ db'.snippets) ∧
      (∀ r ∈ db.snippets, r.id = s.id →
        ({ r with title := s.title, description := s.description,
                  language := s.language, code := s.code,
                  folderId := s.folderId,
                  updatedAt := now } : SnippetRow) ∈ db'.snippets) ∧
      (∀ r' ∈ db'.snippets, ∃ r ∈ db.snippets,
        r'.id = r.id ∧ r'.createdAt = r.createdAt ∧ r'.userId = r.userId)) ∧
    (Create db s now = (db', none) →
      (⟨s.id, s.title, s.description, s.language, s.code, s.userId, s.folderId,
        now, now⟩ : SnippetRow) ∈ db'.snippets) := by
  constructor
  · intro h
    have hsn := Update_ok_snippets db db' s now h
    refine ⟨?_, ?_, ?_⟩
    · intro r hr hne
      rw [hsn]
      have h2 := List.mem_map_of_mem (fun r : SnippetRow =>
        if r.id = s.id then
          { r with title := s.title, description := s.description,
                   language := s.language, code := s.code,
                   folderId := s.folderId, updatedAt := now }
        else r) hr
      simpa [hne] using h2
    · intro r hr he
      rw [hsn]
      have h2 := List.mem_map_of_mem (fun r : SnippetRow =>
        if r.id = s.id then
          { r with title := s.title, description := s.description,
                   language := s.language, code := s.code,
                   folderId := s.folderId, updatedAt := now }
        else r) hr
      simpa [he] using h2
    · intro r' hr'
      rw [hsn] at hr'
      rcases List.mem_map.mp hr' with ⟨r, hr, hfr⟩
      refine ⟨r, hr, ?_⟩
      by_cases he : r.id = s.id
      · rw [← hfr]; simp [he]
      · rw [← hfr]; simp [he]
  · intro h
    rw [Create_ok_snippets db db' s now h]
    exact List.mem_append_right _ (by simp)

theorem claim_update_frame_witness :
    (∀ r' ∈ (Update dbOne sampleSnipNoTags 12).1.snippets, ∃ r ∈ dbOne.snippets,
      r'.id = r.id ∧ r'.createdAt = r.createdAt ∧ r'.userId = r.userId) ∧
    (⟨sampleSnip.id, sampleSnip.title, sampleSnip.description,
      sampleSnip.language, sampleSnip.code, sampleSnip.userId,
      sampleSnip.folderId, 10, 10⟩ : SnippetRow) ∈ dbOne.snippets :=
  ⟨((claim_update_frame dbOne (Update dbOne sampleSnipNoTags 12).1
      sampleSnipNoTags 12).1 (by decide)).2.2,
   (claim_update_frame dbEmpty dbOne sampleSnip 10).2 (by decide)⟩

/-- C8 (counterexample): an unknown username and a wrong password for an
existing username yield the same 401 status but different response bodies
(`"Invalid username"` vs `"Invalid password"`), refuting the same-body part
of the claim. -/
theorem claim_login_same_outcome_counterexample :
    (Login (fun h p => h = p) [⟨"alice", "pw"⟩] "bob" "pw").1 =
      (Login (fun h p => h = p) [⟨"alice", "pw"⟩] "alice" "bad").1 ∧
    ¬ (Login (fun h p => h = p) [⟨"alice", "pw"⟩] "bob" "pw").2 =
      (Login (fun h p => h = p) [⟨"alice", "pw"⟩] "alice" "bad").2 := by
  decide

/-- C8 (amended): both invalid-credential paths answer status 401, but with
distinct bodies: `"Invalid username"` when the username is unknown and
`"Invalid password"` when the bcrypt comparison fails. -/
theorem claim_login_invalid_credentials (verify : String → String → Bool)
    (users : List UserRow) (username password : String) :
    (users.find? (fun u => u.username = username) = none →
      Login verify users username password = (401, "Invalid username")) ∧
    (∀ u, users.find? (fun u2 => u2.username = username) = some u →
      verify u.password password = false →
      Login verify users username password = (401, "Invalid password")) := by
  constructor
  · intro h
    unfold Login
    rw [h]
  · intro u h hv
    unfold Login
    rw [h]
    show (if verify u.password password = true then _ else _) = _
    rw [hv]
    simp

theorem claim_login_invalid_credentials_witness :
    Login (fun h p => h = p) [⟨"alice", "pw"⟩] "bob" "x" =
      (401, "Invalid username") :=
  (claim_login_invalid_credentials (fun h p => h = p) [⟨"alice", "pw"⟩]
    "bob" "x").1 (by decide)

/-- C9: the duplicate-tag asymmetry.  With a tag list that repeats a name,
`Create` on a fresh id still commits (its association insert carries
`ON CONFLICT DO NOTHING`), while `Update` on an existing snippet fails (its
bare association insert violates the composite primary key) and, by the
transaction, returns the stored state unchanged. -/
theorem claim_duplicate_tag_asymmetry (db : DB) (s : Snippet) (now : Nat)
    (hwf : WF db) (hdup : ¬ s.tags.Nodup) :
    (db.hasSnippet s.id = false → (Create db s now).2 = none) ∧
    (db.hasSnippet s.id = true → ∃ e, Update db s now = (db, some e)) := by
  constructor
  · intro hfresh
    obtain ⟨db', hcr, _, _, _⟩ :=
      Create_spec db s now (tagsOK_of_wf db hwf) hfresh
        (no_assoc_of_not_hasSnippet db hwf s.id hfresh)
    rw [hcr]
  · intro _
    exact Update_err_dup db s now (tagsOK_of_wf db hwf) hdup

theorem claim_duplicate_tag_asymmetry_witness :
    (Create dbEmpty sampleSnipDup 10).2 = none ∧
    (∃ e, Update dbOne sampleSnipDup 11 = (dbOne, some e)) :=
  ⟨(claim_duplicate_tag_asymmetry dbEmpty sampleSnipDup 10
      ⟨by decide, by decide, by decide, by decide, by decide, by decide, by decide⟩
      (by decide)).1 (by decide),
   (claim_duplicate_tag_asymmetry dbOne sampleSnipDup 11
      ⟨by decide, by decide, by decide, by decide, by decide, by decide, by decide⟩
      (by decide)).2 (by decide)⟩

/-- C10: the Auth Gate does not require the `"Bearer "` prefix.  A nonempty
Authorization header that does not carry the prefix is left unchanged by
prefix stripping, and if that raw value verifies as a token the wrapped
handler is invoked exactly once with the request unchanged — the request is
accepted, not rejected for malformed header format. -/
theorem claim_no_bearer_prefix_accepted {α : Type} (verify : String → Bool)
    (next : Request → α) (req : Request) (hne : req.authHeader ≠ "")
    (hnp : ¬ "Bearer ".data.isPrefixOf req.authHeader.data)
    (hv : verify req.authHeader = true) :
    trimBearer req.authHeader = req.authHeader ∧
    JWTAuth verify next req = (.fromHandler (next req), 1) := by
  have ht : trimBearer req.authHeader = req.authHeader := by
    unfold trimBearer
    simp [hnp]
  refine ⟨ht, ?_⟩
  unfold JWTAuth
  simp [hne, ht, hv]

theorem claim_no_bearer_prefix_accepted_witness :
    trimBearer "tok" = "tok" ∧
    JWTAuth (fun t => t = "tok") (fun r => r.authHeader) ⟨"tok"⟩ =
      (.fromHandler "tok", 1) :=
  claim_no_bearer_prefix_accepted (fun t => t = "tok")
    (fun r => r.authHeader) ⟨"tok"⟩ (by decide) (by decide) (by decide)

end SnippetManager
